import Mathlib

set_option maxRecDepth 20000

/-!
Verification of the technical-documentation-assistant repository.

Each section embeds one Python module as Lean definitions and proves the
spec claims about it.  Token sequences are modelled as lists of natural
numbers (tiktoken token ids); floating point scores are modelled as exact
rationals.
-/

/-! ## Embedding of src/ingestion/chunker.py (TextChunker)

`chunk_text` encodes the text, returns `[text]` when it fits in one chunk,
and otherwise runs a while loop: at each step it slices
`tokens[start : start + chunk_size]` and advances
`start = (start + chunk_size) - chunk_overlap`.  The Python loop has no
fuel; the explicit fuel below models the number of loop iterations the
interpreter has executed, so a result of `none` for every fuel models a
while loop that never terminates.  Note that `TextChunker.__init__` performs
no validation of the configuration. -/

namespace Chunker

def chunkLoop (chunk_size chunk_overlap : Nat) (tokens : List Nat) :
    Nat → Nat → Option (List (List Nat))
  | 0, _ => none
  | fuel + 1, start =>
    if start < tokens.length then
      match chunkLoop chunk_size chunk_overlap tokens fuel
          (start + chunk_size - chunk_overlap) with
      | none => none
      | some rest => some (((tokens.drop start).take chunk_size) :: rest)
    else
      some []

def chunk_text (chunk_size chunk_overlap : Nat) (tokens : List Nat)
    (fuel : Nat) : Option (List (List Nat)) :=
  if tokens.length ≤ chunk_size then some [tokens]
  else chunkLoop chunk_size chunk_overlap tokens fuel 0

/-- When `chunk_overlap ≥ chunk_size` the loop variable never advances past
the end of the token list, so the loop body runs forever: no fuel ever
suffices. -/
theorem chunkLoop_none_of_size_le_overlap (chunk_size chunk_overlap : Nat)
    (tokens : List Nat) (hso : chunk_size ≤ chunk_overlap) :
    ∀ fuel start, start < tokens.length →
      chunkLoop chunk_size chunk_overlap tokens fuel start = none := by
  intro fuel
  induction fuel with
  | zero => intro start _; rfl
  | succ n ih =>
    intro start hstart
    have hle : start + chunk_size - chunk_overlap ≤ start := by omega
    have hlt : start + chunk_size - chunk_overlap < tokens.length := by omega
    simp only [chunkLoop, if_pos hstart, ih _ hlt]

/-- C3: the spec requires the chunker to detect `chunk_overlap ≥ chunk_size`
and fail fast with a configuration error; the code has no such check and the
while loop of `chunk_text` never terminates on such a configuration.  With
`chunk_size = 2`, `chunk_overlap = 2` and a three-token text, the loop
completes under no amount of fuel: the code loops forever instead of
raising a configuration error. -/
theorem chunk_text_loops_forever_on_bad_config :
    ∀ fuel, chunk_text 2 2 [10, 11, 12] fuel = none := by
  intro fuel
  have h3 : ([10, 11, 12] : List Nat).length = 3 := rfl
  unfold chunk_text
  rw [h3]
  simp only [show ¬(3 ≤ 2) by omega, if_false]
  exact chunkLoop_none_of_size_le_overlap 2 2 _ (le_refl 2) fuel 0 (by simp)

/-- C4 counterexample: with `chunk_size = 512`, `chunk_overlap = 50` and a
1000-token text, `chunk_text` does not produce 2 chunks (it produces 3:
the loop visits starts 0, 462 and 924). -/
theorem chunk_text_1000_tokens_not_two_chunks :
    (chunk_text 512 50 (List.range 1000) 1001).map List.length ≠ some 2 := by
  decide

/-- The concrete result of chunking a 1000-token text with
`chunk_size = 512`, `chunk_overlap = 50` and enough fuel. -/
def chunks1000 : List (List Nat) :=
  (chunk_text 512 50 (List.range 1000) 1001).getD []

/-- C4 amended: with `chunk_size = 512`, `chunk_overlap = 50`, a 1000-token
text yields exactly 3 chunks, with a token overlap of 50 between each pair
of consecutive chunks (the last 50 tokens of a chunk are the first 50
tokens of the next). -/
theorem chunk_text_1000_tokens_three_chunks :
    chunk_text 512 50 (List.range 1000) 1001 = some chunks1000 ∧
    chunks1000.length = 3 ∧
    (chunks1000.getD 0 []).drop 462 = (chunks1000.getD 1 []).take 50 ∧
    (chunks1000.getD 1 []).drop 462 = (chunks1000.getD 2 []).take 50 := by
  refine ⟨by decide, by decide, by decide, by decide⟩

/-- Structure of a terminating run of the while loop: when
`chunk_overlap < chunk_size` and the fuel covers the remaining tokens, the
loop returns the slices `tokens[s : s + chunk_size]` for a strictly
increasing list of start positions that covers every remaining index; with
no overlap the produced chunks concatenate back to the remaining tokens. -/
theorem chunkLoop_structure (chunk_size chunk_overlap : Nat) (tokens : List Nat)
    (hs : chunk_overlap < chunk_size) :
    ∀ fuel start, tokens.length - start < fuel →
      ∃ starts : List Nat,
        chunkLoop chunk_size chunk_overlap tokens fuel start =
          some (starts.map (fun s => (tokens.drop s).take chunk_size)) ∧
        List.Chain' (· < ·) starts ∧
        (∀ s ∈ starts, start ≤ s) ∧
        (∀ i, start ≤ i → i < tokens.length →
          ∃ s ∈ starts, s ≤ i ∧ i < s + chunk_size) ∧
        (chunk_overlap = 0 →
          (starts.map (fun s => (tokens.drop s).take chunk_size)).flatten =
            tokens.drop start) := by
  intro fuel
  induction fuel with
  | zero => intro start hfuel; omega
  | succ n ih =>
    intro start hfuel
    by_cases hstart : start < tokens.length
    · have hstep : start + chunk_size - chunk_overlap = start + (chunk_size - chunk_overlap) := by
        omega
      have hpos : 1 ≤ chunk_size - chunk_overlap := by omega
      obtain ⟨starts', hrun, hchain, hlb, hcov, hjoin⟩ :=
        ih (start + chunk_size - chunk_overlap) (by omega)
      refine ⟨start :: starts', ?_, ?_, ?_, ?_, ?_⟩
      · simp only [chunkLoop, if_pos hstart, hrun, List.map_cons]
      · refine List.chain'_cons'.mpr ⟨?_, hchain⟩
        intro b hb
        have hmem : b ∈ starts' := List.mem_of_mem_head? hb
        have := hlb b hmem
        omega
      · intro s hmem
        rcases List.mem_cons.mp hmem with h | h
        · omega
        · have := hlb s h; omega
      · intro i hi hilen
        by_cases hcase : i < start + chunk_size
        · exact ⟨start, List.mem_cons_self _ _, hi, hcase⟩
        · obtain ⟨s, hsmem, hsle, hslt⟩ := hcov i (by omega) hilen
          exact ⟨s, List.mem_cons_of_mem _ hsmem, hsle, hslt⟩
      · intro hzero
        have hjoin' := hjoin hzero
        subst hzero
        simp only [List.map_cons, List.flatten_cons, hjoin']
        have hd : tokens.drop (start + chunk_size - 0) = (tokens.drop start).drop chunk_size := by
          have h0 : start + chunk_size - 0 = start + chunk_size := by omega
          rw [h0, ← List.drop_drop]
        rw [hd, List.take_append_drop]
    · refine ⟨[], ?_, List.chain'_nil, by simp, ?_, ?_⟩
      · simp only [chunkLoop, if_neg hstart, List.map_nil]
      · intro i hi hilen; omega
      · intro _
        simp only [List.map_nil, List.flatten_nil]
        exact (List.drop_eq_nil_of_le (by omega)).symm

/-- C7: for every configuration with `chunk_overlap < chunk_size` and every
token sequence, `chunk_text` (with fuel `length + 1`, which suffices)
returns chunks that are the slices `tokens[s : s + chunk_size]` for a
strictly increasing list of start positions (so concatenation order is
preserved), every token index is covered by at least one chunk, and when
`chunk_overlap = 0` the chunks concatenate back to exactly the original
tokens (disjoint and contiguous). -/
theorem chunk_text_coverage (chunk_size chunk_overlap : Nat) (tokens : List Nat)
    (hs : chunk_overlap < chunk_size) :
    ∃ starts : List Nat,
      chunk_text chunk_size chunk_overlap tokens (tokens.length + 1) =
        some (starts.map (fun s => (tokens.drop s).take chunk_size)) ∧
      List.Chain' (· < ·) starts ∧
      (∀ i, i < tokens.length → ∃ s ∈ starts, s ≤ i ∧ i < s + chunk_size) ∧
      (chunk_overlap = 0 →
        (starts.map (fun s => (tokens.drop s).take chunk_size)).flatten = tokens) := by
  by_cases hshort : tokens.length ≤ chunk_size
  · refine ⟨[0], ?_, List.chain'_singleton 0, ?_, ?_⟩
    · have : (tokens.drop 0).take chunk_size = tokens := by
        rw [List.drop_zero, List.take_of_length_le hshort]
      simp only [chunk_text, if_pos hshort, List.map_cons, List.map_nil, this]
    · intro i hi
      exact ⟨0, List.mem_singleton.mpr rfl, Nat.zero_le i, by omega⟩
    · intro _
      simp only [List.map_cons, List.map_nil, List.flatten_cons, List.flatten_nil,
        List.drop_zero, List.take_of_length_le hshort, List.append_nil]
  · obtain ⟨starts, hrun, hchain, _, hcov, hjoin⟩ :=
      chunkLoop_structure chunk_size chunk_overlap tokens hs
        (tokens.length + 1) 0 (by omega)
    refine ⟨starts, ?_, hchain, ?_, ?_⟩
    · simp only [chunk_text, if_neg hshort, hrun]
    · intro i hi
      exact hcov i (Nat.zero_le i) hi
    · intro hzero
      rw [hjoin hzero, List.drop_zero]

/-- Witness for C7 at `chunk_size = 3`, `chunk_overlap = 1` on a 5-token
text. -/
theorem chunk_text_coverage_witness :
    1 < 3 ∧
    ∃ starts : List Nat,
      chunk_text 3 1 [20, 21, 22, 23, 24] (([20, 21, 22, 23, 24] : List Nat).length + 1) =
        some (starts.map (fun s => (([20, 21, 22, 23, 24] : List Nat).drop s).take 3)) ∧
      List.Chain' (· < ·) starts ∧
      (∀ i, i < ([20, 21, 22, 23, 24] : List Nat).length →
        ∃ s ∈ starts, s ≤ i ∧ i < s + 3) ∧
      ((1 : Nat) = 0 →
        (starts.map (fun s => (([20, 21, 22, 23, 24] : List Nat).drop s).take 3)).flatten =
          [20, 21, 22, 23, 24]) :=
  ⟨by decide, chunk_text_coverage 3 1 [20, 21, 22, 23, 24] (by decide)⟩

end Chunker

/-! ## Embedding of src/retrieval/retriever.py (HybridRetriever._rerank)

Documents are identified by their `chunk_id`, modelled as a natural number
(the payload of a result dictionary plays no role in scoring or ordering).
The two inputs are the semantic and keyword result lists in their ranked
order.  Python float scores are modelled as exact rationals.

The `scores` defaultdict is built by two loops:
`for rank, doc in enumerate(results, 1): scores[id] += weight / (k + rank)`
with `k = 60`; `rrfAdd` is that loop, threading the accumulated score
function.  The keys of `scores` in insertion order are the semantic ids
followed by the keyword-only ids; `ranked_ids` sorts them by score
descending with Python sorted, which is a stable sort (also with
`reverse=True`), modelled by `List.mergeSort` with the comparison
`scores b ≤ scores a`; the final result takes the first `top_k`. -/

namespace Retriever

def rrfAdd (weight : ℚ) : List Nat → Nat → (Nat → ℚ) → (Nat → ℚ)
  | [], _, s => s
  | c :: rest, rank, s =>
    rrfAdd weight rest (rank + 1)
      (fun x => if x = c then s x + weight * (1 / (60 + (rank : ℚ))) else s x)

def scores (semantic_results keyword_results : List Nat)
    (semantic_weight : ℚ) : Nat → ℚ :=
  rrfAdd (1 - semantic_weight) keyword_results 1
    (rrfAdd semantic_weight semantic_results 1 (fun _ => 0))

/-- The keys of the `scores` dict in insertion order (assuming each input
list has no duplicate ids, which holds for rows of a keyed table). -/
def scoreKeys (semantic_results keyword_results : List Nat) : List Nat :=
  semantic_results ++
    keyword_results.filter (fun c => decide (c ∉ semantic_results))

def rerank (semantic_results keyword_results : List Nat)
    (semantic_weight : ℚ) (top_k : Nat) : List Nat :=
  ((scoreKeys semantic_results keyword_results).mergeSort
    (fun a b =>
      decide (scores semantic_results keyword_results semantic_weight b ≤
        scores semantic_results keyword_results semantic_weight a))).take top_k

/-- Unfolding one accumulation loop: each id stores its previous score plus
`weight / (60 + rank)` where `rank` is its 1-based position offset by the
starting rank, and ids absent from the list are untouched. -/
theorem rrfAdd_eq (weight : ℚ) :
    ∀ (l : List Nat) (r0 : Nat) (s : Nat → ℚ) (c : Nat), l.Nodup →
      rrfAdd weight l r0 s c =
        s c + (if c ∈ l then
          weight * (1 / (60 + ((r0 + l.indexOf c : Nat) : ℚ))) else 0) := by
  intro l
  induction l with
  | nil =>
    intro r0 s c _
    simp [rrfAdd]
  | cons a rest ih =>
    intro r0 s c hnd
    have hnd' : rest.Nodup := hnd.of_cons
    have hanotin : a ∉ rest := (List.nodup_cons.mp hnd).1
    have hstep : rrfAdd weight (a :: rest) r0 s c =
        rrfAdd weight rest (r0 + 1)
          (fun x => if x = a then s x + weight * (1 / (60 + (r0 : ℚ))) else s x)
          c := rfl
    rw [hstep]
    simp only [ih (r0 + 1) _ c hnd']
    by_cases hca : c = a
    · subst hca
      rw [if_pos rfl, if_neg hanotin, if_pos (List.mem_cons_self c rest), add_zero]
      have harith : r0 + (c :: rest).indexOf c = r0 := by
        rw [List.indexOf_cons_self]
        omega
      rw [harith]
    · rw [if_neg hca]
      by_cases hcr : c ∈ rest
      · rw [if_pos hcr, if_pos (List.mem_cons_of_mem a hcr)]
        have harith : r0 + (a :: rest).indexOf c = r0 + 1 + rest.indexOf c := by
          rw [List.indexOf_cons_ne rest (fun h => hca h.symm)]
          omega
        rw [harith]
      · rw [if_neg hcr, if_neg (show c ∉ a :: rest by simp [hca, hcr])]

/-- C1: for every pair of ranked result lists (without duplicate ids) and
every `semantic_weight` in `[0,1]`, the fused score of each candidate is
`semantic_weight * 1/(60 + rank_semantic) +
(1 - semantic_weight) * 1/(60 + rank_lexical)` where `rank` is the 1-based
position in that list and an absent candidate contributes 0 for that term;
and with semantic ranks `[A, B, C] = [0, 1, 2]`, lexical ranks
`[B, C, D] = [1, 2, 3]` and `semantic_weight = 7/10`, candidate `B = 1`
scores strictly above candidate `D = 3`. -/
theorem rrf_fused_score (semantic_results keyword_results : List Nat)
    (semantic_weight : ℚ) (hsem : semantic_results.Nodup)
    (hkw : keyword_results.Nodup) (hw0 : 0 ≤ semantic_weight)
    (hw1 : semantic_weight ≤ 1) :
    (∀ c, scores semantic_results keyword_results semantic_weight c =
      (if c ∈ semantic_results then
        semantic_weight *
          (1 / (60 + ((1 + semantic_results.indexOf c : Nat) : ℚ)))
       else 0) +
      (if c ∈ keyword_results then
        (1 - semantic_weight) *
          (1 / (60 + ((1 + keyword_results.indexOf c : Nat) : ℚ)))
       else 0)) ∧
    scores [0, 1, 2] [1, 2, 3] (7 / 10) 3 <
      scores [0, 1, 2] [1, 2, 3] (7 / 10) 1 := by
  constructor
  · intro c
    simp only [scores,
      rrfAdd_eq (1 - semantic_weight) keyword_results 1 _ c hkw,
      rrfAdd_eq semantic_weight semantic_results 1 (fun _ => 0) c hsem,
      zero_add]
  · norm_num [scores, rrfAdd]

/-- Witness for C1 at the concrete instance of the spec example. -/
theorem rrf_fused_score_witness :
    ([0, 1, 2] : List Nat).Nodup ∧ ([1, 2, 3] : List Nat).Nodup ∧
    (0 : ℚ) ≤ 7 / 10 ∧ (7 : ℚ) / 10 ≤ 1 ∧
    ((∀ c, scores [0, 1, 2] [1, 2, 3] (7 / 10) c =
      (if c ∈ ([0, 1, 2] : List Nat) then
        (7 / 10 : ℚ) * (1 / (60 + ((1 + ([0, 1, 2] : List Nat).indexOf c : Nat) : ℚ)))
       else 0) +
      (if c ∈ ([1, 2, 3] : List Nat) then
        (1 - 7 / 10 : ℚ) * (1 / (60 + ((1 + ([1, 2, 3] : List Nat).indexOf c : Nat) : ℚ)))
       else 0)) ∧
    scores [0, 1, 2] [1, 2, 3] (7 / 10) 3 <
      scores [0, 1, 2] [1, 2, 3] (7 / 10) 1) :=
  ⟨by decide, by decide, by norm_num, by norm_num,
    rrf_fused_score [0, 1, 2] [1, 2, 3] (7 / 10) (by decide) (by decide)
      (by norm_num) (by norm_num)⟩

/-- Two distinct members of a list occur as a two-element sublist in one of
the two orders. -/
theorem pair_sublist_of_mem {a b : Nat} :
    ∀ {l : List Nat}, a ∈ l → b ∈ l → a ≠ b →
      List.Sublist [a, b] l ∨ List.Sublist [b, a] l := by
  intro l
  induction l with
  | nil => intro ha _ _; exact absurd ha (List.not_mem_nil a)
  | cons x t ih =>
    intro ha hb hne
    rcases List.mem_cons.mp ha with hax | hat
    · subst hax
      have hbt : b ∈ t := by
        rcases List.mem_cons.mp hb with h | h
        · exact absurd h.symm hne
        · exact h
      exact Or.inl (List.Sublist.cons₂ a (List.singleton_sublist.mpr hbt))
    · rcases List.mem_cons.mp hb with hbx | hbt
      · subst hbx
        exact Or.inr (List.Sublist.cons₂ b (List.singleton_sublist.mpr hat))
      · exact (ih hat hbt hne).imp (List.Sublist.cons x) (List.Sublist.cons x)

/-- In a list without duplicates, a two-element sublist occurs in index
order. -/
theorem indexOf_lt_of_pair_sublist {a b : Nat} :
    ∀ {l : List Nat}, l.Nodup → List.Sublist [a, b] l →
      l.indexOf a < l.indexOf b := by
  intro l
  induction l with
  | nil => intro _ h; exact absurd h (by simp)
  | cons x t ih =>
    intro hnd h
    have hxt : x ∉ t := (List.nodup_cons.mp hnd).1
    cases h with
    | cons _ h' =>
      have hat : a ∈ t := h'.subset (List.mem_cons_self a [b])
      have hbt : b ∈ t := h'.subset (List.mem_cons_of_mem a (List.mem_cons_self b []))
      have hxa : x ≠ a := fun hxa => hxt (hxa ▸ hat)
      have hxb : x ≠ b := fun hxb => hxt (hxb ▸ hbt)
      rw [List.indexOf_cons_ne t hxa, List.indexOf_cons_ne t hxb]
      exact Nat.succ_lt_succ (ih (List.nodup_cons.mp hnd).2 h')
    | cons₂ _ h' =>
      have hbt : b ∈ t := h'.subset (List.mem_cons_self b [])
      have hab : a ≠ b := fun hab => hxt (hab ▸ hbt)
      rw [List.indexOf_cons_self, List.indexOf_cons_ne t hab]
      exact Nat.succ_pos _

/-- Any two distinct members of a pairwise-related list are related in one
direction. -/
theorem pairwise_rel_of_mem_of_ne {R : Nat → Nat → Prop} {l : List Nat}
    {a b : Nat} (hp : l.Pairwise R) (ha : a ∈ l) (hb : b ∈ l) (hne : a ≠ b) :
    R a b ∨ R b a :=
  (pair_sublist_of_mem ha hb hne).imp
    (fun h => List.pairwise_iff_forall_sublist.mp hp h)
    (fun h => List.pairwise_iff_forall_sublist.mp hp h)

/-- Position of a candidate in the semantic ranking; candidates absent from
the list sort after all present ones. -/
def semKey (semantic_results : List Nat) (c : Nat) : Nat :=
  if c ∈ semantic_results then semantic_results.indexOf c
  else semantic_results.length

/-- Position of a candidate in the lexical (keyword) ranking; absent
candidates sort after all present ones. -/
def lexKey (keyword_results : List Nat) (c : Nat) : Nat :=
  if c ∈ keyword_results then keyword_results.indexOf c
  else keyword_results.length

/-- Strict tie-break order: semantic rank first, then lexical rank. -/
def tieLt (semantic_results keyword_results : List Nat) (a b : Nat) : Prop :=
  semKey semantic_results a < semKey semantic_results b ∨
  (semKey semantic_results a = semKey semantic_results b ∧
    lexKey keyword_results a < lexKey keyword_results b)

/-- The claimed output order: fused score descending, ties broken by
semantic rank, then lexical rank, then chunk id. -/
def keyLE (semantic_results keyword_results : List Nat)
    (semantic_weight : ℚ) (a b : Nat) : Prop :=
  scores semantic_results keyword_results semantic_weight b <
      scores semantic_results keyword_results semantic_weight a ∨
  (scores semantic_results keyword_results semantic_weight a =
      scores semantic_results keyword_results semantic_weight b ∧
    (tieLt semantic_results keyword_results a b ∨
      (semKey semantic_results a = semKey semantic_results b ∧
        lexKey keyword_results a = lexKey keyword_results b ∧ a ≤ b)))

theorem tieLt_asymm {semantic_results keyword_results : List Nat} {a b : Nat}
    (h1 : tieLt semantic_results keyword_results a b)
    (h2 : tieLt semantic_results keyword_results b a) : False := by
  rcases h1 with h1 | ⟨h1e, h1l⟩ <;> rcases h2 with h2 | ⟨h2e, h2l⟩ <;> omega

theorem scoreKeys_nodup {semantic_results keyword_results : List Nat}
    (hsem : semantic_results.Nodup) (hkw : keyword_results.Nodup) :
    (scoreKeys semantic_results keyword_results).Nodup := by
  refine List.Nodup.append hsem (hkw.filter _) ?_
  intro a ha hafil
  have := (List.mem_filter.mp hafil).2
  simp only [decide_eq_true_eq] at this
  exact this ha

theorem scoreKeys_pairwise_tieLt {semantic_results keyword_results : List Nat}
    (hsem : semantic_results.Nodup) (hkw : keyword_results.Nodup) :
    (scoreKeys semantic_results keyword_results).Pairwise
      (tieLt semantic_results keyword_results) := by
  refine List.pairwise_append.mpr ⟨?_, ?_, ?_⟩
  · refine List.pairwise_iff_getElem.mpr ?_
    intro i j hi hj hij
    refine Or.inl ?_
    have hmi : semantic_results[i] ∈ semantic_results := List.getElem_mem hi
    have hmj : semantic_results[j] ∈ semantic_results := List.getElem_mem hj
    simp only [semKey, if_pos hmi, if_pos hmj,
      List.indexOf_getElem hsem i hi, List.indexOf_getElem hsem j hj]
    exact hij
  · have hbase : keyword_results.Pairwise
        (fun a b => keyword_results.indexOf a < keyword_results.indexOf b) := by
      refine List.pairwise_iff_getElem.mpr ?_
      intro i j hi hj hij
      simp only [List.indexOf_getElem hkw i hi, List.indexOf_getElem hkw j hj]
      exact hij
    have hfil : (keyword_results.filter
        (fun c => decide (c ∉ semantic_results))).Pairwise
          (fun a b => keyword_results.indexOf a < keyword_results.indexOf b) :=
      hbase.sublist (List.filter_sublist keyword_results)
    refine hfil.imp_of_mem ?_
    intro a b ha hb hidx
    have hansem : a ∉ semantic_results := by
      have := (List.mem_filter.mp ha).2
      simpa using this
    have hbnsem : b ∉ semantic_results := by
      have := (List.mem_filter.mp hb).2
      simpa using this
    have hakw : a ∈ keyword_results := (List.mem_filter.mp ha).1
    have hbkw : b ∈ keyword_results := (List.mem_filter.mp hb).1
    refine Or.inr ⟨?_, ?_⟩
    · simp [semKey, hansem, hbnsem]
    · simpa [lexKey, hakw, hbkw] using hidx
  · intro a ha b hb
    have hbnsem : b ∉ semantic_results := by
      have := (List.mem_filter.mp hb).2
      simpa using this
    refine Or.inl ?_
    simp only [semKey, if_pos ha, if_neg hbnsem]
    exact List.indexOf_lt_length.mpr ha

/-- C6: assuming the two input rankings carry no duplicate ids, the
sequence returned by `_rerank` has length at most `top_k`, has no
duplicates, and is sorted by fused score descending with ties broken by
original semantic rank, then lexical rank, then chunk id (so the order is
deterministic given the two input rankings). -/
theorem rerank_sorted (semantic_results keyword_results : List Nat)
    (semantic_weight : ℚ) (top_k : Nat)
    (hsem : semantic_results.Nodup) (hkw : keyword_results.Nodup) :
    (rerank semantic_results keyword_results semantic_weight top_k).length ≤
      top_k ∧
    (rerank semantic_results keyword_results semantic_weight top_k).Nodup ∧
    List.Pairwise (keyLE semantic_results keyword_results semantic_weight)
      (rerank semantic_results keyword_results semantic_weight top_k) := by
  set sc := scores semantic_results keyword_results semantic_weight with hsc
  set keys := scoreKeys semantic_results keyword_results with hkeys
  set le := fun a b : Nat => decide (sc b ≤ sc a) with hle
  have htrans : ∀ a b c : Nat, le a b → le b c → le a c := by
    intro a b c h1 h2
    simp only [hle, decide_eq_true_eq] at h1 h2 ⊢
    exact le_trans h2 h1
  have htotal : ∀ a b : Nat, le a b || le b a := by
    intro a b
    simp only [hle, Bool.or_eq_true, decide_eq_true_eq]
    exact le_total (sc b) (sc a)
  have hkeysnd : keys.Nodup := scoreKeys_nodup hsem hkw
  have hkeyspw := scoreKeys_pairwise_tieLt hsem hkw
  have hperm : List.Perm (keys.mergeSort le) keys := List.mergeSort_perm keys le
  have hsortnd : (keys.mergeSort le).Nodup := hperm.nodup_iff.mpr hkeysnd
  have hsorted : (keys.mergeSort le).Pairwise (fun a b => le a b) :=
    List.sorted_mergeSort htrans htotal keys
  have hmain : (keys.mergeSort le).Pairwise
      (keyLE semantic_results keyword_results semantic_weight) := by
    refine List.pairwise_iff_forall_sublist.mpr ?_
    intro a b hab
    have hne : a ≠ b := List.pairwise_iff_forall_sublist.mp hsortnd hab
    have hlescore : sc b ≤ sc a := by
      have := List.pairwise_iff_forall_sublist.mp hsorted hab
      simpa [hle] using this
    have hamem : a ∈ keys := List.mem_mergeSort.mp (hab.subset (by simp))
    have hbmem : b ∈ keys := List.mem_mergeSort.mp (hab.subset (by simp))
    rcases lt_or_eq_of_le hlescore with hlt | heq
    · exact Or.inl hlt
    · refine Or.inr ⟨heq.symm, Or.inl ?_⟩
      rcases pairwise_rel_of_mem_of_ne hkeyspw hamem hbmem hne with h | h
      · exact h
      · exfalso
        rcases pair_sublist_of_mem hamem hbmem hne with hk | hk
        · exact tieLt_asymm (List.pairwise_iff_forall_sublist.mp hkeyspw hk) h
        · have hba : [b, a].Sublist (keys.mergeSort le) :=
            List.pair_sublist_mergeSort htrans htotal
              (by simp [hle, heq.ge]) hk
          have h1 := indexOf_lt_of_pair_sublist hsortnd hab
          have h2 := indexOf_lt_of_pair_sublist hsortnd hba
          omega
  refine ⟨?_, ?_, ?_⟩
  · have : ((keys.mergeSort le).take top_k).length ≤ top_k := by
      rw [List.length_take]
      exact min_le_left _ _
    simpa [rerank, hkeys, hle, hsc] using this
  · exact hsortnd.sublist (List.take_sublist top_k (keys.mergeSort le))
  · exact hmain.sublist (List.take_sublist top_k (keys.mergeSort le))

/-- Witness for C6 at the concrete rankings of the spec example. -/
theorem rerank_sorted_witness :
    ([0, 1, 2] : List Nat).Nodup ∧ ([1, 2, 3] : List Nat).Nodup ∧
    ((rerank [0, 1, 2] [1, 2, 3] (7 / 10) 2).length ≤ 2 ∧
      (rerank [0, 1, 2] [1, 2, 3] (7 / 10) 2).Nodup ∧
      List.Pairwise (keyLE [0, 1, 2] [1, 2, 3] (7 / 10))
        (rerank [0, 1, 2] [1, 2, 3] (7 / 10) 2)) :=
  ⟨by decide, by decide,
    rerank_sorted [0, 1, 2] [1, 2, 3] (7 / 10) 2 (by decide) (by decide)⟩

end Retriever

/-! ## Embedding of src/guardrails/validator.py

`ResponseValidator.validate(response, retrieved_chunks)` first extracts
citations from the response with `_extract_citations` (a set of regex
matches); the extraction result is passed here as the explicit list
`citations`, since the claims quantify over the extracted citations.  A
retrieved chunk is modelled by its `file_path` and the age in days of its
`commit_date` relative to now: `commitAge = none` models a chunk whose
`commit_date` is absent or fails to parse (the code catches the parse
exception and emits no staleness warning), `commitAge = some d` models a
chunk whose `commit_date` parses to an age of `d` days.  Warning texts are
abbreviated renderings of the f-strings in the code. -/

namespace Validator

structure Chunk where
  file_path : String
  commitAge : Option Int

def max_staleness_days : Int := 180

/-- Check 3 of `validate` for one citation: find the FIRST chunk whose
`file_path` equals the citation (`next(...)` over the chunk list), and warn
only if that chunk has a parseable commit date older than the staleness
threshold. -/
def staleWarningFor (retrieved_chunks : List Chunk) (citation : String) :
    Option String :=
  match retrieved_chunks.find? (fun c => c.file_path == citation) with
  | none => none
  | some chunk =>
    match chunk.commitAge with
    | none => none
    | some age_days =>
      if age_days > max_staleness_days then
        some (citation ++ " is " ++ toString age_days ++ " days old")
      else none

/-- Substring test on character lists: some suffix of the haystack starts
with the needle (Python `needle in hay`). -/
def containsSub (needle : List Char) : List Char → Bool
  | [] => needle.isEmpty
  | c :: t => needle.isPrefixOf (c :: t) || containsSub needle t

/-- Case-insensitive substring test (Python
`needle.lower() in hay.lower()`), performed characterwise. -/
def strContainsCI (hay needle : String) : Bool :=
  containsSub (needle.data.map Char.toLower) (hay.data.map Char.toLower)

/-- The error patterns of check 5 (apostrophe written as an escape). -/
def error_patterns : List String :=
  ["I don\x27t have", "I cannot find", "not available", "I apologize"]

/-- `ResponseValidator.validate`: errors from checks 1 and 2, warnings from
checks 3 to 5, validity iff no errors.  Returns
`(is_valid, errors, warnings)`. -/
def validate (response : String) (citations : List String)
    (retrieved_chunks : List Chunk) : Bool × List String × List String :=
  let errors :=
    (if citations.isEmpty then ["Response has no citations"] else []) ++
    (citations.filter
      (fun c => decide (c ∉ retrieved_chunks.map Chunk.file_path))).map
      (fun c => "Hallucinated citation: " ++ c)
  let warnings :=
    citations.filterMap (staleWarningFor retrieved_chunks) ++
    (if response.trim.length < 20 then
      ["Response is very short, may be incomplete"] else []) ++
    (error_patterns.filter
      (fun p => strContainsCI response p)).map
      (fun p => "Response contains error pattern: " ++ p)
  (errors.isEmpty, errors, warnings)

/-- C2: a citation that matches no retrieved file path makes the response
invalid with an error naming it; no citations at all is invalid; validity
holds iff the error list is empty; and neither the errors nor the validity
depend on the response text (which only feeds warnings), so warnings never
affect validity. -/
theorem validate_hallucination_rejection (response : String)
    (citations : List String) (retrieved_chunks : List Chunk) :
    ((validate response citations retrieved_chunks).1 = true ↔
      (validate response citations retrieved_chunks).2.1 = []) ∧
    (∀ c ∈ citations, c ∉ retrieved_chunks.map Chunk.file_path →
      (validate response citations retrieved_chunks).1 = false ∧
      ("Hallucinated citation: " ++ c) ∈
        (validate response citations retrieved_chunks).2.1) ∧
    (citations = [] →
      (validate response citations retrieved_chunks).1 = false) ∧
    (∀ response2 : String,
      (validate response2 citations retrieved_chunks).2.1 =
        (validate response citations retrieved_chunks).2.1 ∧
      (validate response2 citations retrieved_chunks).1 =
        (validate response citations retrieved_chunks).1) := by
  refine ⟨?_, ?_, ?_, ?_⟩
  · simp [validate, List.isEmpty_iff]
  · intro c hc hnot
    have hmem : ("Hallucinated citation: " ++ c) ∈
        (validate response citations retrieved_chunks).2.1 := by
      simp only [validate]
      refine List.mem_append.mpr (Or.inr ?_)
      exact List.mem_map.mpr ⟨c, List.mem_filter.mpr ⟨hc, by simpa using hnot⟩, rfl⟩
    refine ⟨?_, hmem⟩
    have hne : (validate response citations retrieved_chunks).2.1 ≠ [] :=
      fun h => by simp [h] at hmem
    simp only [validate] at hne ⊢
    simpa [List.isEmpty_iff] using hne
  · intro h
    subst h
    simp [validate]
  · intro response2
    exact ⟨rfl, rfl⟩

/-- C10: for a citation, the staleness check consults only the first chunk
whose file path equals the citation; if that chunk has no (parseable)
commit date or is within the 180-day threshold, no staleness warning is
emitted for the citation, even when a later chunk of the same file is
older than the threshold (second conjunct: first chunk without a date,
later chunk 400 days old, still no warning). -/
theorem stale_check_uses_first_match_only (retrieved_chunks : List Chunk)
    (citation : String) (ch : Chunk)
    (hfind : retrieved_chunks.find? (fun c => c.file_path == citation) =
      some ch)
    (hok : ch.commitAge = none ∨ ∃ a, ch.commitAge = some a ∧ a ≤ 180) :
    staleWarningFor retrieved_chunks citation = none ∧
    staleWarningFor
      [Chunk.mk citation none, Chunk.mk citation (some 400)] citation =
      none := by
  constructor
  · rcases hok with h | ⟨a, ha, hle⟩
    · simp [staleWarningFor, hfind, h]
    · simp only [staleWarningFor, hfind, ha]
      rw [if_neg (by simp only [max_staleness_days]; omega)]
  · simp [staleWarningFor, List.find?]

/-- Witness for C10 at a concrete chunk list. -/
theorem stale_check_uses_first_match_only_witness :
    ([⟨"docs/a.md", some 10⟩] : List Chunk).find?
        (fun c => c.file_path == "docs/a.md") =
      some ⟨"docs/a.md", some 10⟩ ∧
    ((⟨"docs/a.md", some 10⟩ : Chunk).commitAge = none ∨
      ∃ a, (⟨"docs/a.md", some 10⟩ : Chunk).commitAge = some a ∧ a ≤ 180) ∧
    (staleWarningFor [⟨"docs/a.md", some 10⟩] "docs/a.md" = none ∧
      staleWarningFor
        [Chunk.mk "docs/a.md" none, Chunk.mk "docs/a.md" (some 400)]
        "docs/a.md" = none) :=
  ⟨by simp [List.find?], Or.inr ⟨10, rfl, by norm_num⟩,
    stale_check_uses_first_match_only [⟨"docs/a.md", some 10⟩] "docs/a.md"
      ⟨"docs/a.md", some 10⟩ (by simp [List.find?])
      (Or.inr ⟨10, rfl, by norm_num⟩)⟩

/-- Witness for C2 at the spec example: citing docs/missing.md when only
docs/real.md was retrieved. -/
theorem validate_hallucination_rejection_witness :
    "docs/missing.md" ∈ ["docs/missing.md"] ∧
    ("docs/missing.md" ∉
      ([⟨"docs/real.md", none⟩] : List Chunk).map Chunk.file_path) ∧
    ((validate "resp" ["docs/missing.md"] [⟨"docs/real.md", none⟩]).1 =
        false ∧
      ("Hallucinated citation: " ++ "docs/missing.md") ∈
        (validate "resp" ["docs/missing.md"] [⟨"docs/real.md", none⟩]).2.1) :=
  ⟨by simp, by simp,
    (validate_hallucination_rejection "resp" ["docs/missing.md"]
        [⟨"docs/real.md", none⟩]).2.1 "docs/missing.md" (by simp) (by simp)⟩

/-! ### InputValidator (same module)

`validate_query` rejects on length bounds, then on the SQL-injection
regexes, then on the script-injection substrings.  Each regex of the code
is translated to an explicit scanner:

* Python 3 `re` on `str` patterns gives `\s` its full Unicode meaning:
  enumerating every code point against `re.compile(r"\s")` yields exactly
  the 29 code points listed in `isPyWs` below (the ASCII whitespace and
  separator controls 9-13, 28-31, 32, then U+0085, U+00A0, U+1680,
  U+2000-U+200A, U+2028, U+2029, U+202F, U+205F, U+3000);
* the literals are matched case-insensitively with full Unicode
  case-insensitivity (`re.IGNORECASE` on `str`): enumerating every code
  point against `(?i)L` for each letter `L` of the patterns yields exactly
  the two ASCII cases, plus U+0130 and U+0131 for `i` and U+017F (long s)
  for `s` — see `reLitMatches`;
* `re.search` tries the pattern at every position;
* in pattern 4, `--\s*$` without `re.MULTILINE`, `$` matches at the end of
  the string or just before a trailing newline; since a trailing newline is
  itself whitespace, the pattern matches at a position exactly when
  everything after the two hyphens is whitespace. -/

/-- The code points the regex class `\s` matches in Python 3 on `str`
(the exact set, obtained by enumerating all code points). -/
def isPyWs (c : Char) : Bool :=
  [9, 10, 11, 12, 13, 28, 29, 30, 31, 32, 133, 160, 5760,
    8192, 8193, 8194, 8195, 8196, 8197, 8198, 8199, 8200, 8201, 8202,
    8232, 8233, 8239, 8287, 12288].contains c.toNat

/-- The characters a lowercase ASCII letter literal matches under
`re.IGNORECASE` (full Unicode case-insensitivity): its two ASCII cases,
plus U+0130 and U+0131 for `i` and U+017F for `s`.  Exact for every
letter occurring in the four SQL patterns (enumerated over all code
points). -/
def reLitMatches (p c : Char) : Bool :=
  c == p || c.toNat == p.toNat - 32 ||
  (p == 'i' && (c.toNat == 304 || c.toNat == 305)) ||
  (p == 's' && c.toNat == 383)

/-- Case-insensitive literal match returning the rest of the input (the
pattern is given in lowercase ASCII). -/
def matchLit : List Char → List Char → Option (List Char)
  | [], cs => some cs
  | _ :: _, [] => none
  | p :: ps, c :: cs =>
    if reLitMatches p c then matchLit ps cs else none

/-- Greedily drop `\s*` (the following literal is never whitespace, so the
greedy match is exact). -/
def dropWsStar : List Char → List Char
  | [] => []
  | c :: cs => if isPyWs c then dropWsStar cs else c :: cs

/-- Match `\s+`: at least one whitespace character, then greedily more. -/
def matchWsPlus : List Char → Option (List Char)
  | [] => none
  | c :: cs => if isPyWs c then some (dropWsStar cs) else none

/-- One semicolon-prefixed pattern `;\s*KW1\s+KW2` at a position. -/
def semiPatAt (kw1 kw2 : List Char) : List Char → Bool
  | ';' :: rest =>
    (match matchLit kw1 (dropWsStar rest) with
     | none => false
     | some r1 =>
       match matchWsPlus r1 with
       | none => false
       | some r2 => (matchLit kw2 r2).isSome)
  | _ => false

/-- `UNION\s+SELECT` at a position. -/
def unionSelectAt (cs : List Char) : Bool :=
  match matchLit "union".data cs with
  | none => false
  | some r1 =>
    match matchWsPlus r1 with
    | none => false
    | some r2 => (matchLit "select".data r2).isSome

/-- `--\s*$` at a position (see the module comment above). -/
def dashDashEndAt : List Char → Bool
  | '-' :: '-' :: t => t.all isPyWs
  | _ => false

/-- `re.search`: try the pattern at every position of the string. -/
def searchAny (p : List Char → Bool) : List Char → Bool
  | [] => p []
  | c :: cs => p (c :: cs) || searchAny p cs

def sql_injection (query : String) : Bool :=
  searchAny (semiPatAt "drop".data "table".data) query.data ||
  searchAny (semiPatAt "delete".data "from".data) query.data ||
  searchAny unionSelectAt query.data ||
  searchAny dashDashEndAt query.data

/-- The characters whose Python `str.lower()` is the given ASCII pattern
character: exactly the two ASCII cases for a letter and the character
itself otherwise (enumerated over all code points for every character of
the two script patterns).  U+0130 is the only code point whose `lower()`
expands to more than one character; its expansion `i` + U+0307 cannot take
part in a match of either pattern below, because `i` is always followed by
`p` there and U+0307 matches nothing in them, so scanning the original
characters with this predicate is equivalent to the substring test on the
lowered string. -/
def pyLowerEq (p c : Char) : Bool :=
  c == p || (p.isLower && c.toNat == p.toNat - 32)

def matchesLowered : List Char → List Char → Bool
  | [], _ => true
  | _ :: _, [] => false
  | p :: ps, c :: cs => pyLowerEq p c && matchesLowered ps cs

/-- Python `pat in query.lower()` for an ASCII pattern (see `pyLowerEq`). -/
def containsLowered (pat : List Char) : List Char → Bool
  | [] => pat.isEmpty
  | c :: cs => matchesLowered pat (c :: cs) || containsLowered pat cs

def script_injection (query : String) : Bool :=
  containsLowered "<script".data query.data ||
  containsLowered "javascript:".data query.data

def min_query_length : Nat := 3

def max_query_length : Nat := 500

/-- `InputValidator.validate_query` (reason strings abbreviated from the
f-strings of the code). -/
def validate_query (query : String) : Bool × Option String :=
  if query.length < min_query_length then
    (false, some "Query too short (minimum 3 characters)")
  else if query.length > max_query_length then
    (false, some "Query too long (maximum 500 characters)")
  else if sql_injection query then
    (false, some "Invalid query format")
  else if script_injection query then
    (false, some "Invalid query format")
  else
    (true, none)

/-- C9: with the default bounds (3, 500), queries of length 2 and of length
501 are rejected with a reason, and queries of length 3 or 500 that match
no injection signature are accepted as `(true, none)`. -/
theorem validate_query_boundaries :
    (∀ q : String, q.length = 2 →
      (validate_query q).1 = false ∧ (validate_query q).2.isSome) ∧
    (∀ q : String, q.length = 501 →
      (validate_query q).1 = false ∧ (validate_query q).2.isSome) ∧
    (∀ q : String, (q.length = 3 ∨ q.length = 500) →
      sql_injection q = false → script_injection q = false →
      validate_query q = (true, none)) := by
  refine ⟨?_, ?_, ?_⟩
  · intro q hq
    rw [validate_query, if_pos (by rw [hq]; simp [min_query_length])]
    exact ⟨rfl, rfl⟩
  · intro q hq
    rw [validate_query,
      if_neg (by rw [hq]; simp [min_query_length]),
      if_pos (by rw [hq]; simp [max_query_length])]
    exact ⟨rfl, rfl⟩
  · intro q hq hsql hscript
    have h1 : ¬ q.length < min_query_length := by
      simp only [min_query_length]; omega
    have h2 : ¬ q.length > max_query_length := by
      simp only [max_query_length]; omega
    rw [validate_query, if_neg h1, if_neg h2, hsql, hscript]
    simp

/-- A 500-character query of letters. -/
def q500 : String := String.mk (List.replicate 500 'a')

/-- Witness for C9 at concrete queries of length 2, 501, 3 and 500. -/
theorem validate_query_boundaries_witness :
    ("ab" : String).length = 2 ∧
    (q500 ++ "a").length = 501 ∧
    (("abc" : String).length = 3 ∨ ("abc" : String).length = 500) ∧
    sql_injection "abc" = false ∧ script_injection "abc" = false ∧
    (q500.length = 3 ∨ q500.length = 500) ∧
    sql_injection q500 = false ∧ script_injection q500 = false ∧
    ((validate_query "ab").1 = false ∧ (validate_query "ab").2.isSome) ∧
    ((validate_query (q500 ++ "a")).1 = false ∧
      (validate_query (q500 ++ "a")).2.isSome) ∧
    validate_query "abc" = (true, none) ∧
    validate_query q500 = (true, none) :=
  ⟨rfl, by decide, Or.inl rfl, by decide, by decide, Or.inr (by decide),
    by decide, by decide,
    validate_query_boundaries.1 "ab" rfl,
    validate_query_boundaries.2.1 (q500 ++ "a") (by decide),
    validate_query_boundaries.2.2 "abc" (Or.inl rfl) (by decide) (by decide),
    validate_query_boundaries.2.2 q500 (Or.inr (by decide)) (by decide)
      (by decide)⟩

/-- Sanity for the Unicode semantics of the scanners: a length-3 query of
two hyphens and a no-break space (U+00A0, Unicode whitespace) matches
`--\s*$` and is rejected; `union` + space + U+017F (long s) + `elect`
matches `UNION\s+SELECT` under `re.IGNORECASE`; and the script check is
case-insensitive. -/
theorem validate_query_unicode_rejections :
    validate_query "--\u00A0" = (false, some "Invalid query format") ∧
    sql_injection "union \u017Felect" = true ∧
    script_injection "<SCRIPT" = true := by
  refine ⟨by decide, by decide, by decide⟩

end Validator

/-! ## Embedding of src/ingestion/indexer.py (DocumentIndexer)

`_generate_chunk_id` is `hashlib.md5(f"{repo}::{file_path}::{i}".encode()).hexdigest()`;
MD5 (RFC 1321) is implemented below over natural numbers reduced modulo
`2^32`, on the UTF-8 bytes of the string, producing the lowercase
32-character hex digest of the 128-bit digest exactly as `hexdigest()`
does. -/

namespace Indexer

def u32 (n : Nat) : Nat := n % 4294967296

def not32 (x : Nat) : Nat := 4294967295 - x

def rotl32 (x s : Nat) : Nat := u32 (x * 2 ^ s) + x / 2 ^ (32 - s)

/-- The 64 constants `floor(abs(sin(i+1)) * 2^32)` of MD5. -/
def md5K : List Nat := [
  3614090360, 3905402710, 606105819, 3250441966, 4118548399, 1200080426, 2821735955, 4249261313,
  1770035416, 2336552879, 4294925233, 2304563134, 1804603682, 4254626195, 2792965006, 1236535329,
  4129170786, 3225465664, 643717713, 3921069994, 3593408605, 38016083, 3634488961, 3889429448,
  568446438, 3275163606, 4107603335, 1163531501, 2850285829, 4243563512, 1735328473, 2368359562,
  4294588738, 2272392833, 1839030562, 4259657740, 2763975236, 1272893353, 4139469664, 3200236656,
  681279174, 3936430074, 3572445317, 76029189, 3654602809, 3873151461, 530742520, 3299628645,
  4096336452, 1126891415, 2878612391, 4237533241, 1700485571, 2399980690, 4293915773, 2240044497,
  1873313359, 4264355552, 2734768916, 1309151649, 4149444226, 3174756917, 718787259, 3951481745]

/-- The per-round left-rotation amounts of MD5. -/
def md5S : List Nat := [
  7, 12, 17, 22, 7, 12, 17, 22, 7, 12, 17, 22, 7, 12, 17, 22,
  5, 9, 14, 20, 5, 9, 14, 20, 5, 9, 14, 20, 5, 9, 14, 20,
  4, 11, 16, 23, 4, 11, 16, 23, 4, 11, 16, 23, 4, 11, 16, 23,
  6, 10, 15, 21, 6, 10, 15, 21, 6, 10, 15, 21, 6, 10, 15, 21]

structure MD5State where
  a : Nat
  b : Nat
  c : Nat
  d : Nat

/-- One MD5 round `i` (0-based) on a 16-word block `M`. -/
def md5Step (M : List Nat) (i : Nat) (st : MD5State) : MD5State :=
  let f :=
    if i < 16 then (st.b &&& st.c) ||| (not32 st.b &&& st.d)
    else if i < 32 then (st.d &&& st.b) ||| (not32 st.d &&& st.c)
    else if i < 48 then st.b ^^^ st.c ^^^ st.d
    else st.c ^^^ (st.b ||| not32 st.d)
  let g :=
    if i < 16 then i
    else if i < 32 then (5 * i + 1) % 16
    else if i < 48 then (3 * i + 5) % 16
    else (7 * i) % 16
  let temp := u32 (st.a + f + md5K.getD i 0 + M.getD g 0)
  ⟨st.d, u32 (st.b + rotl32 temp (md5S.getD i 0)), st.b, st.c⟩

/-- Run rounds `64 - n` to `63`. -/
def md5Rounds (M : List Nat) : Nat → MD5State → MD5State
  | 0, st => st
  | n + 1, st => md5Rounds M n (md5Step M (64 - (n + 1)) st)

def md5Block (st : MD5State) (M : List Nat) : MD5State :=
  let r := md5Rounds M 64 st
  ⟨u32 (st.a + r.a), u32 (st.b + r.b), u32 (st.c + r.c), u32 (st.d + r.d)⟩

/-- UTF-8 bytes of one character (Python `str.encode()`). -/
def utf8Bytes (ch : Char) : List Nat :=
  let n := ch.toNat
  if n < 128 then [n]
  else if n < 2048 then [192 + n / 64, 128 + n % 64]
  else if n < 65536 then
    [224 + n / 4096, 128 + (n / 64) % 64, 128 + n % 64]
  else
    [240 + n / 262144, 128 + (n / 4096) % 64, 128 + (n / 64) % 64,
      128 + n % 64]

def strBytes (s : String) : List Nat := (s.data.map utf8Bytes).flatten

/-- `k` little-endian bytes of `n`. -/
def leBytes : Nat → Nat → List Nat
  | 0, _ => []
  | k + 1, n => (n % 256) :: leBytes k (n / 256)

/-- MD5 padding: a `0x80` byte, zeros to 56 mod 64, then the bit length
modulo `2^64` as 8 little-endian bytes. -/
def padMsg (msg : List Nat) : List Nat :=
  let z := (56 + 64 - ((msg.length + 1) % 64)) % 64
  msg ++ [128] ++ List.replicate z 0 ++ leBytes 8 ((8 * msg.length) % 18446744073709551616)

/-- Little-endian 32-bit words of a byte list (groups of four). -/
def toWordsLE : List Nat → List Nat
  | b0 :: b1 :: b2 :: b3 :: rest =>
    (b0 + 256 * b1 + 65536 * b2 + 16777216 * b3) :: toWordsLE rest
  | _ => []

/-- Split a padded byte list into 16-word blocks (fuel-bounded; the fuel is
always at least the number of blocks). -/
def toBlocks : Nat → List Nat → List (List Nat)
  | 0, _ => []
  | _ + 1, [] => []
  | n + 1, bytes => toWordsLE (bytes.take 64) :: toBlocks n (bytes.drop 64)

def md5Init : MD5State := ⟨1732584193, 4023233417, 2562383102, 271733878⟩

def md5DigestBytes (s : String) : List Nat :=
  let padded := padMsg (strBytes s)
  let fin := (toBlocks padded.length padded).foldl md5Block md5Init
  leBytes 4 fin.a ++ leBytes 4 fin.b ++ leBytes 4 fin.c ++ leBytes 4 fin.d

def hexDigit (n : Nat) : Char :=
  if n < 10 then Char.ofNat (48 + n) else Char.ofNat (87 + n)

def byteHex (b : Nat) : List Char := [hexDigit (b / 16), hexDigit (b % 16)]

/-- `hashlib.md5(s.encode()).hexdigest()`. -/
def md5hex (s : String) : String :=
  String.mk (((md5DigestBytes s).map byteHex).flatten)

/-- Sanity: the implementation agrees with the RFC 1321 test vector for
`abc`. -/
theorem md5hex_abc :
    (md5hex "abc").data = "900150983cd24fb0d6963f7d28e17f72".data := by
  decide

/-- `DocumentIndexer._generate_chunk_id`: the MD5 hex digest of
`repo::file_path::chunk_index`; the chunk text is not an input. -/
def generate_chunk_id (repo : String) (file_path : String)
    (chunk_index : Nat) : String :=
  md5hex (repo ++ "::" ++ file_path ++ "::" ++ toString chunk_index)

/-- The fields of the chunk dictionary built by `_process_file` that the
storage layer keys on or updates. -/
structure ChunkRecord where
  chunk_id : String
  repo_name : String
  file_path : String
  text : String
  embedding : List ℚ

def processChunk (repo : String) (file_path : String) (i : Nat)
    (text : String) (embedding : List ℚ) : ChunkRecord :=
  { chunk_id := generate_chunk_id repo file_path i
    repo_name := repo
    file_path := file_path
    text := text
    embedding := embedding }

/-- `VectorDB.upsert_chunks` for one chunk: the `documents` table is a list
of rows with unique `chunk_id`;
`INSERT ... ON CONFLICT (chunk_id) DO UPDATE SET text, embedding, ...`
updates the conflicting row in place, otherwise appends a new row. -/
def upsertOne (table : List ChunkRecord) (c : ChunkRecord) :
    List ChunkRecord :=
  if table.any (fun r => r.chunk_id == c.chunk_id) then
    table.map (fun r =>
      if r.chunk_id == c.chunk_id then
        { r with text := c.text, embedding := c.embedding }
      else r)
  else table ++ [c]

def upsert_chunks (table : List ChunkRecord)
    (chunks : List ChunkRecord) : List ChunkRecord :=
  chunks.foldl upsertOne table

/-- Auxiliary: hex rendering doubles the byte count. -/
theorem length_flatten_map_byteHex (bs : List Nat) :
    ((bs.map byteHex).flatten).length = 2 * bs.length := by
  induction bs with
  | nil => rfl
  | cons b rest ih =>
    simp only [List.map_cons, List.flatten_cons, List.length_append, ih,
      List.length_cons, byteHex, List.length_cons, List.length_nil]
    omega

/-- The MD5 hex digest always renders 16 bytes as 32 characters. -/
theorem md5hex_length (s : String) : (md5hex s).length = 32 := by
  have hd : (md5DigestBytes s).length = 16 := by
    simp only [md5DigestBytes, List.length_append]
    rfl
  show (((md5DigestBytes s).map byteHex).flatten).length = 32
  rw [length_flatten_map_byteHex, hd]

/-- C8: the chunk id is a deterministic function of
`(repository, file_path, ordinal)` alone — the 32-hex-character (128-bit)
MD5 digest of `repo::path::ordinal`, independent of the chunk text — and
therefore indexing the same triple twice with different texts and
embeddings leaves one stored row carrying the second text and embedding,
rather than two rows. -/
theorem chunk_id_deterministic_and_upsert_in_place (repo file_path : String)
    (i : Nat) (text1 text2 : String) (e1 e2 : List ℚ) :
    (processChunk repo file_path i text1 e1).chunk_id =
      (processChunk repo file_path i text2 e2).chunk_id ∧
    generate_chunk_id repo file_path i =
      md5hex (repo ++ "::" ++ file_path ++ "::" ++ toString i) ∧
    (generate_chunk_id repo file_path i).length = 32 ∧
    upsert_chunks [] [processChunk repo file_path i text1 e1] =
      [processChunk repo file_path i text1 e1] ∧
    upsert_chunks (upsert_chunks [] [processChunk repo file_path i text1 e1])
        [processChunk repo file_path i text2 e2] =
      [processChunk repo file_path i text2 e2] := by
  refine ⟨rfl, rfl, md5hex_length _, ?_, ?_⟩
  · simp [upsert_chunks, upsertOne]
  · simp [upsert_chunks, upsertOne, processChunk]

end Indexer

/-! ## Embedding of src/storage/db.py and HybridRetriever.retrieve (C5)

A `documents` row is modelled by the columns the filters touch.  The query
embedding enters only through the cosine similarity of a row, modelled by
an arbitrary function `sim`; the full-text match of
`plainto_tsquery` and its `ts_rank` are likewise modelled by arbitrary
functions `tsMatch` and `rank`.  `semantic_search` filters by
`similarity ≥ threshold` plus the optional `repo_name` and `file_type`
equality filters, orders by similarity descending and takes `limit` rows;
`keyword_search` filters by the text match plus the optional `repo_name`
filter only — it has no `file_type` parameter at all — orders by rank
descending and takes `limit` rows.  `retrieve` calls `semantic_search`
with `limit = top_k * 2` and `similarity_threshold = 0.5` passing both
filters, and `keyword_search` with `limit = top_k` passing only
`repo_name`. -/

namespace Storage

structure Row where
  chunk_id : Nat
  repo_name : String
  file_path : String
  file_type : String
  text : String

def semanticWhere (sim : Row → ℚ) (similarity_threshold : ℚ)
    (repo_name file_type : Option String) (row : Row) : Bool :=
  decide (similarity_threshold ≤ sim row) &&
  (match repo_name with
   | none => true
   | some r => row.repo_name == r) &&
  (match file_type with
   | none => true
   | some t => row.file_type == t)

def semantic_search (table : List Row) (sim : Row → ℚ) (limit : Nat)
    (repo_name file_type : Option String) (similarity_threshold : ℚ) :
    List Row :=
  ((table.filter
      (semanticWhere sim similarity_threshold repo_name file_type)).mergeSort
    (fun a b => decide (sim b ≤ sim a))).take limit

def keywordWhere (tsMatch : Row → Bool) (repo_name : Option String)
    (row : Row) : Bool :=
  tsMatch row &&
  (match repo_name with
   | none => true
   | some r => row.repo_name == r)

def keyword_search (table : List Row) (tsMatch : Row → Bool)
    (rank : Row → ℚ) (limit : Nat) (repo_name : Option String) : List Row :=
  ((table.filter (keywordWhere tsMatch repo_name)).mergeSort
    (fun a b => decide (rank b ≤ rank a))).take limit

/-- The semantic call made by `HybridRetriever.retrieve`. -/
def retrieveSemantic (table : List Row) (sim : Row → ℚ) (top_k : Nat)
    (repo_name file_type : Option String) : List Row :=
  semantic_search table sim (top_k * 2) repo_name file_type (1 / 2)

/-- The keyword call made by `HybridRetriever.retrieve`: only `query`,
`limit = top_k` and `repo_name` are passed. -/
def retrieveKeyword (table : List Row) (tsMatch : Row → Bool)
    (rank : Row → ℚ) (top_k : Nat) (repo_name : Option String) : List Row :=
  keyword_search table tsMatch rank top_k repo_name

/-- The lexical path as the claim describes it: `keyword_search` with the
file-type filter also applied.  This definition follows the words of the
spec sentence (both paths optionally filtered by repository and file type)
and exists only to be compared with the code. -/
def keyword_search_claimed (table : List Row) (tsMatch : Row → Bool)
    (rank : Row → ℚ) (limit : Nat)
    (repo_name file_type : Option String) : List Row :=
  ((table.filter (fun row =>
      keywordWhere tsMatch repo_name row &&
      (match file_type with
       | none => true
       | some t => row.file_type == t))).mergeSort
    (fun a b => decide (rank b ≤ rank a))).take limit

/-- C5 counterexample: with one matching row whose `file_type` is `py` and
a requested file-type filter `md`, the code returns the row on the lexical
path (the filter is not applied there), while the claimed lexical path
returns nothing. -/
theorem retrieve_keyword_ignores_file_type :
    retrieveKeyword [⟨1, "r", "a.py", "py", "t"⟩] (fun _ => true)
        (fun _ => 0) 1 none =
      [⟨1, "r", "a.py", "py", "t"⟩] ∧
    (⟨1, "r", "a.py", "py", "t"⟩ : Row).file_type ≠ "md" ∧
    keyword_search_claimed [⟨1, "r", "a.py", "py", "t"⟩] (fun _ => true)
        (fun _ => 0) 1 none (some "md") = [] := by
  refine ⟨?_, by decide, ?_⟩
  · simp [retrieveKeyword, keyword_search, keywordWhere]
  · simp [keyword_search_claimed, keywordWhere]

/-- C5 amended: `retrieve` requests `2 * top_k` candidates from the
semantic path with minimum similarity `0.5`, applying both the repository
and the file-type filter there, and `top_k` candidates from the lexical
path, applying only the repository filter there (the file-type filter is
not applied to the lexical path). -/
theorem retrieve_requests (table : List Row) (sim : Row → ℚ)
    (tsMatch : Row → Bool) (rank : Row → ℚ) (top_k : Nat)
    (repo_name file_type : Option String) :
    (retrieveSemantic table sim top_k repo_name file_type).length ≤
      top_k * 2 ∧
    (∀ row ∈ retrieveSemantic table sim top_k repo_name file_type,
      (1 / 2 : ℚ) ≤ sim row ∧
      (∀ r, repo_name = some r → row.repo_name = r) ∧
      (∀ t, file_type = some t → row.file_type = t)) ∧
    (retrieveKeyword table tsMatch rank top_k repo_name).length ≤ top_k ∧
    (∀ row ∈ retrieveKeyword table tsMatch rank top_k repo_name,
      tsMatch row = true ∧
      (∀ r, repo_name = some r → row.repo_name = r)) := by
  refine ⟨?_, ?_, ?_, ?_⟩
  · rw [retrieveSemantic, semantic_search, List.length_take]
    exact min_le_left _ _
  · intro row hrow
    have hmem : row ∈ (table.filter
        (semanticWhere sim (1 / 2) repo_name file_type)).mergeSort
        (fun a b => decide (sim b ≤ sim a)) :=
      (List.take_sublist _ _).subset hrow
    have hfil := (List.mem_filter.mp (List.mem_mergeSort.mp hmem)).2
    simp only [semanticWhere, Bool.and_eq_true, decide_eq_true_eq] at hfil
    obtain ⟨⟨hsim, hrepo⟩, htype⟩ := hfil
    refine ⟨hsim, ?_, ?_⟩
    · intro r hr
      rw [hr] at hrepo
      exact beq_iff_eq.mp hrepo
    · intro t ht
      rw [ht] at htype
      exact beq_iff_eq.mp htype
  · rw [retrieveKeyword, keyword_search, List.length_take]
    exact min_le_left _ _
  · intro row hrow
    have hmem : row ∈ (table.filter (keywordWhere tsMatch repo_name)).mergeSort
        (fun a b => decide (rank b ≤ rank a)) :=
      (List.take_sublist _ _).subset hrow
    have hfil := (List.mem_filter.mp (List.mem_mergeSort.mp hmem)).2
    simp only [keywordWhere, Bool.and_eq_true] at hfil
    obtain ⟨hts, hrepo⟩ := hfil
    refine ⟨hts, ?_⟩
    intro r hr
    rw [hr] at hrepo
    exact beq_iff_eq.mp hrepo

end Storage
